import Mathlib

/-!
Verification of the range-based set reconciliation core
(`src/iroh-sync/src/ranger.rs`) against its specification.

The Rust source is shallowly embedded:
* `Fingerprint` (a 32-byte array under componentwise XOR) becomes a list of
  byte values with `List.zipWith Nat.xor`;
* the reference store (`SimpleStore`, a `BTreeMap`) becomes a list of entries
  strictly sorted by key; its iteration-with-filter `get_range` becomes
  `List.filter`;
* the generic entry trait (`RangeEntry`) becomes an abstract type `E`
  together with explicit functions `key : E → K` and `efp : E → Fingerprint`
  (for `RangeEntry::key` and `RangeEntry::as_fingerprint`);
* `Peer::process_message` becomes a pure function threading the store.
-/

namespace Ranger

/-- A fingerprint: the Rust `Fingerprint(pub [u8; 32])`, modelled as the list
of its 32 byte values. -/
structure Fingerprint where
  bytes : List Nat
  deriving DecidableEq

/-- Componentwise XOR, mirroring `impl BitXorAssign for Fingerprint`. -/
def Fingerprint.xor (a b : Fingerprint) : Fingerprint :=
  ⟨List.zipWith Nat.xor a.bytes b.bytes⟩

/-- The fingerprint of the empty set: `Fingerprint::empty()` returns
`blake3::hash(&[])`, i.e. the BLAKE3 hash of the empty byte string, whose 32
bytes are the fixed constant below (af1349b9...3262). -/
def Fingerprint.empty : Fingerprint :=
  ⟨[0xaf, 0x13, 0x49, 0xb9, 0xf5, 0xf9, 0xa1, 0xa6,
    0xa0, 0x40, 0x4d, 0xee, 0x36, 0xdc, 0xc9, 0x49,
    0x9b, 0xcb, 0x25, 0xc9, 0xad, 0xc1, 0x12, 0xb7,
    0xcc, 0x9a, 0x93, 0xca, 0xe4, 0x1f, 0x32, 0x62]⟩

/-- A range `(x, y)` over keys, with wrap-around semantics (`struct Range<K>`). -/
structure Range (K : Type) where
  x : K
  y : K
  deriving DecidableEq

/-- `Range::is_all`: the range denotes the whole set iff `x == y`. -/
def Range.is_all {K : Type} [LinearOrder K] (r : Range K) : Bool :=
  r.x = r.y

/-- `Range::contains`: dispatch on `x.cmp(y)`; equal means all, less means the
half-open interval, greater means the wrap-around complement. -/
def Range.contains {K : Type} [LinearOrder K] (r : Range K) (t : K) : Bool :=
  match compare r.x r.y with
  | Ordering.eq => true
  | Ordering.lt => decide (r.x ≤ t) && decide (t < r.y)
  | Ordering.gt => decide (r.x ≤ t) || decide (t < r.y)

/-- `RangeFingerprint { range, fingerprint }` message part payload. -/
structure RangeFingerprint (K : Type) where
  range : Range K
  fingerprint : Fingerprint
  deriving DecidableEq

/-- `RangeItem { range, values, have_local }` message part payload. -/
structure RangeItem (K E : Type) where
  range : Range K
  values : List E
  have_local : Bool
  deriving DecidableEq

/-- A message part: either a range fingerprint or a range item. -/
inductive MessagePart (K E : Type) where
  | rangeFingerprint (rf : RangeFingerprint K)
  | rangeItem (ri : RangeItem K E)
  deriving DecidableEq

/-- A message: an ordered sequence of parts. -/
structure Message (K E : Type) where
  parts : List (MessagePart K E)
  deriving DecidableEq

section StoreOps

variable {K E : Type} [LinearOrder K]

/-- The reference store (`SimpleStore`, a `BTreeMap<K, V>`): a list of entries
strictly sorted by key. The sortedness invariant is carried separately as a
`List.Pairwise` hypothesis where proofs need it. -/
abbrev StoreList (E : Type) := List E

/-- `SimpleStore::get_range` via `SimpleRangeIterator`: iterate the map in key
order and keep the entries whose key the range contains. -/
def get_range (key : E → K) (store : StoreList E) (r : Range K) : List E :=
  store.filter (fun e => r.contains (key e))

/-- XOR-fold of per-entry fingerprints starting from `Fingerprint::empty()`,
the body of `SimpleStore::get_fingerprint`. -/
def fingerprintOf (efp : E → Fingerprint) (l : List E) : Fingerprint :=
  l.foldl (fun acc e => acc.xor (efp e)) Fingerprint.empty

/-- `SimpleStore::get_fingerprint`: fold XOR over the entries of the range. -/
def get_fingerprint (key : E → K) (efp : E → Fingerprint) (store : StoreList E)
    (r : Range K) : Fingerprint :=
  fingerprintOf efp (get_range key store r)

/-- `SimpleStore::get_first`: the smallest key, or the key default if the
store is empty. -/
def get_first (key : E → K) (dflt : K) (store : StoreList E) : K :=
  match store with
  | [] => dflt
  | e :: _ => key e

/-- `SimpleStore::put` (`BTreeMap::insert`): insert an entry into the sorted
list, replacing any entry with the same key. -/
def put (key : E → K) (store : StoreList E) (e : E) : StoreList E :=
  match store with
  | [] => [e]
  | f :: rest =>
    if key e < key f then e :: f :: rest
    else if key e = key f then e :: rest
    else f :: put key rest e

/-- `Iterator::position`: the index of the first element satisfying the
predicate, if any. -/
def position (p : E → Bool) : List E → Option Nat
  | [] => none
  | a :: l => if p a then some 0 else (position p l).map (· + 1)

end StoreOps

section PeerOps

variable {K E : Type} [LinearOrder K]

/-- `struct Peer`: a store plus the two tunables. Both constructors in the
source (`Default::default` and `Peer::from_store`) set `max_set_size = 1` and
`split_factor = 2`. -/
structure Peer (E : Type) where
  store : StoreList E
  max_set_size : Nat
  split_factor : Nat

/-- `Peer::from_store`. -/
def Peer.from_store (store : StoreList E) : Peer E :=
  { store := store, max_set_size := 1, split_factor := 2 }

/-- `Message::init`: one `RangeFingerprint` part over the range `(x, x)`
with `x = store.get_first()`. -/
def Message.init (key : E → K) (efp : E → Fingerprint) (dflt : K)
    (store : StoreList E) : Message K E :=
  let x := get_first key dflt store
  let range : Range K := ⟨x, x⟩
  let fingerprint := get_fingerprint key efp store range
  ⟨[MessagePart.rangeFingerprint ⟨range, fingerprint⟩]⟩

/-- `Peer::initial_message`. -/
def Peer.initial_message (key : E → K) (efp : E → Fingerprint) (dflt : K)
    (p : Peer E) : Message K E :=
  Message.init key efp dflt p.store

/-- The first loop of `process_message`: split the inbound parts into the item
parts and the fingerprint parts, preserving order within each kind. -/
def splitParts : List (MessagePart K E) → List (RangeItem K E) × List (RangeFingerprint K)
  | [] => ([], [])
  | MessagePart.rangeItem item :: rest =>
    let r := splitParts rest
    (item :: r.1, r.2)
  | MessagePart.rangeFingerprint rf :: rest =>
    let r := splitParts rest
    (r.1, rf :: r.2)

/-- The `diff` computed for an inbound `RangeItem` with `have_local == false`:
local entries of the range whose key is not among the keys of the shipped
values. -/
def computeDiff (key : E → K) (store : StoreList E) (item : RangeItem K E) :
    List E :=
  (get_range key store item.range).filter
    (fun existing => ! item.values.any (fun entry => decide (key existing = key entry)))

/-- The insertion loop for an inbound `RangeItem`: each shipped entry is put
into the store iff `validate_cb` accepts it. -/
def putValues (key : E → K) (validate : StoreList E → E → Bool)
    (store : StoreList E) (values : List E) : StoreList E :=
  values.foldl (fun s entry => if validate s entry then put key s entry else s) store

/-- Processing of one inbound `RangeItem` part: compute the diff on the
current store (only when `have_local == false`), then insert the validated
values, then emit the diff back when it is non-empty. -/
def processItem (key : E → K) (validate : StoreList E → E → Bool)
    (store : StoreList E) (item : RangeItem K E) :
    StoreList E × List (MessagePart K E) :=
  let diff : Option (List E) :=
    if item.have_local then none else some (computeDiff key store item)
  let store1 := putValues key validate store item.values
  let out : List (MessagePart K E) :=
    match diff with
    | none => []
    | some d =>
      if d.isEmpty then []
      else [MessagePart.rangeItem ⟨item.range, d, true⟩]
  (store1, out)

/-- Phase A of `process_message`: process the item parts in order, threading
the store. -/
def processItems (key : E → K) (validate : StoreList E → E → Bool) :
    StoreList E → List (RangeItem K E) → StoreList E × List (MessagePart K E)
  | store, [] => (store, [])
  | store, item :: rest =>
    let r1 := processItem key validate store item
    let r2 := processItems key validate r1.1 rest
    (r2.1, r1.2 ++ r2.2)

/-- `start_index` of the Case-3 split: the first index whose key is `≥ range.x`,
or `0` if there is none (`position(..).unwrap_or(0)`). -/
def startIndex (key : E → K) (rx : K) (local_values : List E) : Nat :=
  (position (fun el => decide (rx ≤ key el)) local_values).getD 0

/-- The Case-3 pivot closure: `pivot(i)` wraps `i` modulo `split_factor`,
takes the offset `(n * (i + 1)) / split_factor`, shifts it by `start_index`
modulo `n`, and returns the key at that index. The list is never indexed out
of bounds in the program (the index is reduced modulo `n` with `n ≥ 2`), so
the default key stands in only for the impossible out-of-range case. -/
def pivot (key : E → K) (dflt : K) (local_values : List E)
    (split_factor si i : Nat) : K :=
  let i := i % split_factor
  let offset := (local_values.length * (i + 1)) / split_factor
  let offset := (si + offset) % local_values.length
  (local_values.map key).getD offset dflt

/-- The Case-3 sub-range construction: for the all-range, the `split_factor`
ranges `(pivot i, pivot (i+1))` skipping those with equal endpoints; otherwise
`(range.x, pivot 0)`, the middle ranges (only for `split_factor > 2`) skipping
those with equal endpoints, and `(pivot (split_factor - 2), range.y)`. -/
def buildRanges (key : E → K) (dflt : K) (split_factor : Nat) (r : Range K)
    (local_values : List E) : List (Range K) :=
  let si := startIndex key r.x local_values
  let piv := fun i => pivot key dflt local_values split_factor si i
  if r.x = r.y then
    (List.range split_factor).filterMap (fun i =>
      if piv i ≠ piv (i + 1) then some ⟨piv i, piv (i + 1)⟩ else none)
  else
    ⟨r.x, piv 0⟩ ::
      ((List.range (split_factor - 2)).filterMap (fun i =>
        if piv i ≠ piv (i + 1) then some ⟨piv i, piv (i + 1)⟩ else none)
      ++ [⟨piv (split_factor - 2), r.y⟩])

/-- The Case-3 emission loop: for each constructed sub-range, emit a
`RangeFingerprint` when its local entry count exceeds `max_set_size`, else a
`RangeItem` carrying the local entries with `have_local = false`. -/
def case3Parts (key : E → K) (efp : E → Fingerprint) (dflt : K)
    (max_set_size split_factor : Nat) (store : StoreList E) (r : Range K)
    (local_values : List E) : List (MessagePart K E) :=
  (buildRanges key dflt split_factor r local_values).map (fun sub =>
    let chunk := get_range key store sub
    if max_set_size < chunk.length then
      MessagePart.rangeFingerprint ⟨sub, get_fingerprint key efp store sub⟩
    else
      MessagePart.rangeItem ⟨sub, chunk, false⟩)

/-- The count the `debug_assert!(non_empty > 1)` in Case 3 checks: how many of
the constructed sub-ranges hold at least one local entry. -/
def nonEmptyCount (key : E → K) (store : StoreList E)
    (ranges : List (Range K)) : Nat :=
  List.countP (fun sub => !(get_range key store sub).isEmpty) ranges

/-- Phase B handling of one inbound `RangeFingerprint` part: Case 1 (match,
emit nothing), Case 2 (recursion anchor: at most one local entry or empty
remote fingerprint, ship the local entries literally), Case 3 (recurse). -/
def processFingerprint (key : E → K) (efp : E → Fingerprint) (dflt : K)
    (max_set_size split_factor : Nat) (store : StoreList E)
    (rf : RangeFingerprint K) : List (MessagePart K E) :=
  let local_fingerprint := get_fingerprint key efp store rf.range
  if local_fingerprint = rf.fingerprint then []
  else
    let local_values := get_range key store rf.range
    if local_values.length ≤ 1 ∨ rf.fingerprint = Fingerprint.empty then
      [MessagePart.rangeItem ⟨rf.range, local_values, false⟩]
    else
      case3Parts key efp dflt max_set_size split_factor store rf.range local_values

/-- Phase B of `process_message`: handle the fingerprint parts in order (the
store is not modified in this phase). -/
def processFingerprints (key : E → K) (efp : E → Fingerprint) (dflt : K)
    (max_set_size split_factor : Nat) (store : StoreList E)
    (fps : List (RangeFingerprint K)) : List (MessagePart K E) :=
  (fps.map (processFingerprint key efp dflt max_set_size split_factor store)).flatten

/-- `Peer::process_message` on an explicit store: split the parts, ingest the
item parts (Phase A), answer the fingerprint parts (Phase B), and return
`some` reply iff any part was produced. -/
def process_message_store (key : E → K) (efp : E → Fingerprint) (dflt : K)
    (validate : StoreList E → E → Bool) (max_set_size split_factor : Nat)
    (store : StoreList E) (msg : Message K E) :
    StoreList E × Option (Message K E) :=
  let split := splitParts msg.parts
  let phaseA := processItems key validate store split.1
  let outB := processFingerprints key efp dflt max_set_size split_factor phaseA.1 split.2
  let out := phaseA.2 ++ outB
  (phaseA.1, if out.isEmpty then none else some ⟨out⟩)

/-- `Peer::process_message`. -/
def Peer.process_message (key : E → K) (efp : E → Fingerprint) (dflt : K)
    (validate : StoreList E → E → Bool) (p : Peer E) (msg : Message K E) :
    Peer E × Option (Message K E) :=
  let r := process_message_store key efp dflt validate p.max_set_size p.split_factor
    p.store msg
  ({ p with store := r.1 }, r.2)

end PeerOps

/-! ### Fingerprint algebra -/

section FingerprintLemmas

lemma natXor_assoc (x y z : Nat) : (x.xor y).xor z = x.xor (y.xor z) :=
  Nat.xor_assoc x y z

lemma natXor_comm (x y : Nat) : x.xor y = y.xor x :=
  Nat.xor_comm x y

lemma natXor_zero (x : Nat) : x.xor 0 = x :=
  Nat.xor_zero x

lemma zipXor_assoc : ∀ (a b c : List Nat),
    List.zipWith Nat.xor (List.zipWith Nat.xor a b) c
      = List.zipWith Nat.xor a (List.zipWith Nat.xor b c)
  | [], _, _ => by simp
  | _ :: _, [], _ => by simp
  | _ :: _, _ :: _, [] => by simp
  | x :: a, y :: b, z :: c => by
    simp only [List.zipWith_cons_cons]
    rw [natXor_assoc, zipXor_assoc a b c]

lemma zipXor_comm : ∀ (a b : List Nat),
    List.zipWith Nat.xor a b = List.zipWith Nat.xor b a
  | [], _ => by simp
  | _ :: _, [] => by simp
  | x :: a, y :: b => by
    simp only [List.zipWith_cons_cons]
    rw [natXor_comm, zipXor_comm a b]

lemma zipXor_zeros : ∀ (l : List Nat) (n : Nat), l.length ≤ n →
    List.zipWith Nat.xor l (List.replicate n 0) = l
  | [], _, _ => by simp
  | x :: l, n + 1, h => by
    rw [List.replicate_succ, List.zipWith_cons_cons, natXor_zero,
      zipXor_zeros l n (by simpa using h)]
  | x :: l, 0, h => by simp at h

lemma Fingerprint.xor_assoc (a b c : Fingerprint) :
    (a.xor b).xor c = a.xor (b.xor c) := by
  simp [Fingerprint.xor, zipXor_assoc]

lemma Fingerprint.xor_comm (a b : Fingerprint) : a.xor b = b.xor a := by
  simp [Fingerprint.xor, zipXor_comm a.bytes b.bytes]

lemma Fingerprint.xor_left_comm (a b c : Fingerprint) :
    a.xor (b.xor c) = b.xor (a.xor c) := by
  rw [← Fingerprint.xor_assoc, Fingerprint.xor_comm a b, Fingerprint.xor_assoc]

lemma Fingerprint.length_xor_le (a b : Fingerprint) :
    (a.xor b).bytes.length ≤ a.bytes.length := by
  simp [Fingerprint.xor]

lemma Fingerprint.empty_xor_empty :
    Fingerprint.empty.xor Fingerprint.empty = ⟨List.replicate 32 0⟩ := by decide

lemma Fingerprint.xor_replicate_zero (a : Fingerprint) (h : a.bytes.length ≤ 32) :
    a.xor ⟨List.replicate 32 0⟩ = a := by
  cases a with
  | mk l => exact congrArg Fingerprint.mk (zipXor_zeros l 32 h)

variable {E : Type} (efp : E → Fingerprint)

lemma foldl_xor_out : ∀ (l : List E) (c d : Fingerprint),
    List.foldl (fun acc e => acc.xor (efp e)) (c.xor d) l
      = (List.foldl (fun acc e => acc.xor (efp e)) c l).xor d
  | [], c, d => rfl
  | b :: l, c, d => by
    simp only [List.foldl_cons]
    rw [Fingerprint.xor_assoc, Fingerprint.xor_comm d (efp b),
      ← Fingerprint.xor_assoc, foldl_xor_out l (c.xor (efp b)) d]

lemma length_foldl_xor_le : ∀ (l : List E) (c : Fingerprint),
    (List.foldl (fun acc e => acc.xor (efp e)) c l).bytes.length ≤ c.bytes.length
  | [], _ => le_refl _
  | b :: l, c =>
    le_trans (length_foldl_xor_le l (c.xor (efp b))) (Fingerprint.length_xor_le c (efp b))

lemma length_fingerprintOf_le (l : List E) :
    (fingerprintOf efp l).bytes.length ≤ 32 :=
  length_foldl_xor_le efp l Fingerprint.empty

lemma foldl_xor_eq : ∀ (l : List E) (c : Fingerprint), c.bytes.length ≤ 32 →
    List.foldl (fun acc e => acc.xor (efp e)) c l
      = c.xor ((fingerprintOf efp l).xor Fingerprint.empty)
  | [], c, h => by
    rw [fingerprintOf, List.foldl_nil, List.foldl_nil, Fingerprint.empty_xor_empty,
      Fingerprint.xor_replicate_zero c h]
  | b :: l, c, h => by
    rw [List.foldl_cons,
      foldl_xor_eq l (c.xor (efp b)) (le_trans (Fingerprint.length_xor_le c (efp b)) h)]
    have hrhs : fingerprintOf efp (b :: l)
        = (fingerprintOf efp l).xor (efp b) := by
      rw [fingerprintOf, fingerprintOf, List.foldl_cons, foldl_xor_out]
    rw [hrhs]
    simp only [Fingerprint.xor_assoc, Fingerprint.xor_comm,
      Fingerprint.xor_left_comm]

lemma fingerprintOf_append (A B : List E) :
    fingerprintOf efp (A ++ B)
      = ((fingerprintOf efp A).xor (fingerprintOf efp B)).xor Fingerprint.empty := by
  rw [fingerprintOf, List.foldl_append, ← fingerprintOf,
    foldl_xor_eq efp B (fingerprintOf efp A) (length_fingerprintOf_le efp A),
    Fingerprint.xor_assoc]

end FingerprintLemmas

/-- C1, counterexample: the claimed homomorphism `fp(A ∪ B) = fp(A) ⊕ fp(B)`
fails on the code at the concrete disjoint entry sets `A = {1}` and `B = {2}`
(entries are their own keys, the per-entry fingerprint of `n` is 32 bytes
`n`): because `get_fingerprint` XOR-folds starting from the non-zero constant
`Fingerprint::empty()`, the two `empty()` contributions on the right-hand
side cancel while the left-hand side keeps one. -/
theorem fingerprint_hom_counterexample :
    (∀ a ∈ [(1 : Nat)], ∀ b ∈ [(2 : Nat)], a ≠ b)
    ∧ fingerprintOf (fun n : Nat => ⟨List.replicate 32 n⟩) ([1] ++ [2])
        ≠ (fingerprintOf (fun n : Nat => ⟨List.replicate 32 n⟩) [1]).xor
            (fingerprintOf (fun n : Nat => ⟨List.replicate 32 n⟩) [2]) := by
  constructor
  · decide
  · decide

/-- C1, amended: for any disjoint sets `A`, `B` of entries, the fingerprint
computed by the reference store's XOR-fold satisfies
`fp(A ∪ B) = fp(A) ⊕ fp(B) ⊕ empty()` (one extra `empty()` term compared to
the claim, which the non-zero fold seed forces), and `fp(∅) = empty()`. -/
theorem fingerprint_homomorphism_amended {K E : Type} [LinearOrder K]
    (key : E → K) (efp : E → Fingerprint) (A B : List E)
    (hdisj : ∀ a ∈ A, ∀ b ∈ B, key a ≠ key b) :
    fingerprintOf efp (A ++ B)
      = ((fingerprintOf efp A).xor (fingerprintOf efp B)).xor Fingerprint.empty
    ∧ fingerprintOf efp ([] : List E) = Fingerprint.empty :=
  ⟨fingerprintOf_append efp A B, rfl⟩

/-- Witness for C1 at `A = {1}`, `B = {2}`. -/
theorem fingerprint_homomorphism_amended_witness :
    (∀ a ∈ [(1 : Nat)], ∀ b ∈ [(2 : Nat)], id a ≠ id b)
    ∧ (fingerprintOf (fun n : Nat => ⟨List.replicate 32 n⟩) ([1] ++ [2])
        = ((fingerprintOf (fun n : Nat => ⟨List.replicate 32 n⟩) [1]).xor
            (fingerprintOf (fun n : Nat => ⟨List.replicate 32 n⟩) [2])).xor
            Fingerprint.empty
      ∧ fingerprintOf (fun n : Nat => ⟨List.replicate 32 n⟩) ([] : List Nat)
        = Fingerprint.empty) :=
  ⟨by decide,
   fingerprint_homomorphism_amended (id : Nat → Nat)
     (fun n : Nat => ⟨List.replicate 32 n⟩) [1] [2] (by decide)⟩

/-! ### Range algebra -/

section RangeLemmas

variable {K : Type} [LinearOrder K]

lemma Range.contains_true_of_eq (r : Range K) (h : r.x = r.y) (t : K) :
    r.contains t = true := by
  unfold Range.contains
  rw [show compare r.x r.y = Ordering.eq from compare_eq_iff_eq.mpr h]

lemma Range.contains_iff_of_lt (r : Range K) (h : r.x < r.y) (t : K) :
    r.contains t = true ↔ r.x ≤ t ∧ t < r.y := by
  unfold Range.contains
  rw [show compare r.x r.y = Ordering.lt from compare_lt_iff_lt.mpr h]
  simp

lemma Range.contains_iff_of_gt (r : Range K) (h : r.y < r.x) (t : K) :
    r.contains t = true ↔ r.x ≤ t ∨ t < r.y := by
  unfold Range.contains
  rw [show compare r.x r.y = Ordering.gt from compare_gt_iff_gt.mpr h]
  simp

lemma Range.contains_left_self (r : Range K) : r.contains r.x = true := by
  rcases lt_trichotomy r.x r.y with h | h | h
  · rw [r.contains_iff_of_lt h]
    exact ⟨le_refl _, h⟩
  · exact r.contains_true_of_eq h _
  · rw [r.contains_iff_of_gt h]
    exact Or.inl (le_refl _)

lemma Range.ne_y_of_contains (r : Range K) (hxy : r.x ≠ r.y) (t : K)
    (h : r.contains t = true) : t ≠ r.y := by
  rcases lt_or_gt_of_ne hxy with hlt | hgt
  · rw [r.contains_iff_of_lt hlt] at h
    exact ne_of_lt h.2
  · rw [r.contains_iff_of_gt hgt] at h
    rcases h with h | h
    · intro he
      exact absurd (he ▸ h) (not_le.mpr hgt)
    · exact ne_of_lt h

end RangeLemmas

/-- C7: range containment is decided by exactly one of three disjoint, total
cases — `x = y` (all: always true), `x < y` (normal: `x ≤ t ∧ t < y`),
`x > y` (wrap: `x ≤ t ∨ t < y`). -/
theorem contains_trichotomy {K : Type} [LinearOrder K] (x y t : K) :
    (x = y ∨ x < y ∨ y < x)
    ∧ ¬(x = y ∧ x < y) ∧ ¬(x = y ∧ y < x) ∧ ¬(x < y ∧ y < x)
    ∧ (x = y → (Range.mk x y).contains t = true)
    ∧ (x < y → ((Range.mk x y).contains t = true ↔ x ≤ t ∧ t < y))
    ∧ (y < x → ((Range.mk x y).contains t = true ↔ x ≤ t ∨ t < y)) := by
  refine ⟨?_, ?_, ?_, ?_, ?_, ?_, ?_⟩
  · rcases lt_trichotomy x y with h | h | h
    exacts [Or.inr (Or.inl h), Or.inl h, Or.inr (Or.inr h)]
  · rintro ⟨he, hl⟩
    rw [he] at hl
    exact lt_irrefl y hl
  · rintro ⟨he, hl⟩
    rw [he] at hl
    exact lt_irrefl y hl
  · rintro ⟨h1, h2⟩
    exact lt_asymm h1 h2
  · intro h
    exact Range.contains_true_of_eq ⟨x, y⟩ h t
  · intro h
    exact Range.contains_iff_of_lt ⟨x, y⟩ h t
  · intro h
    exact Range.contains_iff_of_gt ⟨x, y⟩ h t

/-- Witness for C7 at `x = 3`, `y = 5`, `t = 4` over `Nat`. -/
theorem contains_trichotomy_witness :
    ((3 : Nat) = 5 ∨ (3 : Nat) < 5 ∨ (5 : Nat) < 3)
    ∧ ¬((3 : Nat) = 5 ∧ (3 : Nat) < 5) ∧ ¬((3 : Nat) = 5 ∧ (5 : Nat) < 3)
    ∧ ¬((3 : Nat) < 5 ∧ (5 : Nat) < 3)
    ∧ ((3 : Nat) = 5 → (Range.mk (3 : Nat) 5).contains 4 = true)
    ∧ ((3 : Nat) < 5 →
        ((Range.mk (3 : Nat) 5).contains 4 = true ↔ (3 : Nat) ≤ 4 ∧ (4 : Nat) < 5))
    ∧ ((5 : Nat) < 3 →
        ((Range.mk (3 : Nat) 5).contains 4 = true ↔ (3 : Nat) ≤ 4 ∨ (4 : Nat) < 5)) :=
  contains_trichotomy 3 5 4

/-- C8: `initial_message` returns exactly one part, a `RangeFingerprint` over
the range `(x, x)` with `x = store.get_first()` and the store's fingerprint
of that range; it is a pure function of the store (the store is unchanged). -/
theorem initial_message_spec {K E : Type} [LinearOrder K]
    (key : E → K) (efp : E → Fingerprint) (dflt : K) (p : Peer E) :
    Peer.initial_message key efp dflt p
      = ⟨[MessagePart.rangeFingerprint
          ⟨⟨get_first key dflt p.store, get_first key dflt p.store⟩,
           get_fingerprint key efp p.store
             ⟨get_first key dflt p.store, get_first key dflt p.store⟩⟩]⟩
    ∧ (Peer.initial_message key efp dflt p).parts.length = 1 :=
  ⟨rfl, rfl⟩

/-! ### Position, sortedness and pivot lemmas -/

section PositionLemmas

variable {E : Type}

lemma position_cons (p : E → Bool) (a : E) (l : List E) :
    position p (a :: l) = if p a then some 0 else (position p l).map (· + 1) :=
  rfl

lemma position_none_forall (p : E → Bool) :
    ∀ (l : List E), position p l = none → ∀ e ∈ l, p e = false
  | [], _, e, he => absurd he (List.not_mem_nil e)
  | a :: l, hnone, e, he => by
    rw [position_cons] at hnone
    by_cases hpa : p a = true
    · rw [if_pos hpa] at hnone
      exact absurd hnone (by simp)
    · rw [if_neg hpa] at hnone
      have hplnone : position p l = none := by
        rcases hpl : position p l with _ | j
        · rfl
        · rw [hpl] at hnone; simp at hnone
      rcases List.mem_cons.mp he with rfl | hmem
      · simpa using hpa
      · exact position_none_forall p l hplnone e hmem

lemma position_some_spec (p : E → Bool) :
    ∀ (l : List E) (j : Nat), position p l = some j →
      ∃ h : j < l.length, p (l.get ⟨j, h⟩) = true
        ∧ ∀ i (hi : i < l.length), i < j → p (l.get ⟨i, hi⟩) = false
  | [], j, h => by simp [position] at h
  | a :: l, j, hsome => by
    rw [position_cons] at hsome
    by_cases hpa : p a = true
    · rw [if_pos hpa] at hsome
      have hj0 : j = 0 := by simpa using hsome.symm
      subst hj0
      exact ⟨Nat.succ_pos _, hpa, fun i hi hij => absurd hij (Nat.not_lt_zero i)⟩
    · rw [if_neg hpa] at hsome
      rcases hpos : position p l with _ | j'
      · rw [hpos] at hsome; simp at hsome
      · rw [hpos] at hsome
        simp at hsome
        obtain ⟨hj', htrue, hmin⟩ := position_some_spec p l j' hpos
        subst hsome
        refine ⟨Nat.succ_lt_succ hj', htrue, ?_⟩
        intro i hi hij
        cases i with
        | zero => simpa using hpa
        | succ i' =>
          exact hmin i' (Nat.lt_of_succ_lt_succ hi) (Nat.lt_of_succ_lt_succ hij)

end PositionLemmas

section SortedLemmas

variable {K E : Type} [LinearOrder K] (key : E → K)

lemma sorted_key_lt {l : List E}
    (hs : List.Pairwise (fun a b => key a < key b) l) {i j : Nat}
    (hi : i < l.length) (hj : j < l.length) (hij : i < j) :
    key (l.get ⟨i, hi⟩) < key (l.get ⟨j, hj⟩) := by
  rw [List.pairwise_iff_getElem] at hs
  simpa [List.get_eq_getElem] using hs i j hi hj hij

lemma sorted_key_ne {l : List E}
    (hs : List.Pairwise (fun a b => key a < key b) l) {i j : Nat}
    (hi : i < l.length) (hj : j < l.length) (hij : i ≠ j) :
    key (l.get ⟨i, hi⟩) ≠ key (l.get ⟨j, hj⟩) := by
  rcases lt_or_gt_of_ne hij with h | h
  · exact ne_of_lt (sorted_key_lt key hs hi hj h)
  · exact ne_of_gt (sorted_key_lt key hs hj hi h)

lemma get_range_sorted (store : StoreList E) (r : Range K)
    (hs : List.Pairwise (fun a b => key a < key b) store) :
    List.Pairwise (fun a b => key a < key b) (get_range key store r) :=
  hs.filter _

lemma mem_get_range_iff {store : StoreList E} {r : Range K} {e : E} :
    e ∈ get_range key store r ↔ e ∈ store ∧ r.contains (key e) = true := by
  unfold get_range
  simp [List.mem_filter]

lemma mem_store_of_mem_get_range {store : StoreList E} {r : Range K} {e : E}
    (h : e ∈ get_range key store r) : e ∈ store :=
  ((mem_get_range_iff key).mp h).1

lemma contains_of_mem_get_range {store : StoreList E} {r : Range K} {e : E}
    (h : e ∈ get_range key store r) : r.contains (key e) = true :=
  ((mem_get_range_iff key).mp h).2

end SortedLemmas

section PivotLemmas

variable {K E : Type} [LinearOrder K] (key : E → K)

lemma startIndex_lt (rx : K) (l : List E) (hl : 0 < l.length) :
    startIndex key rx l < l.length := by
  unfold startIndex
  rcases hpos : position (fun el => decide (rx ≤ key el)) l with _ | j
  · simpa using hl
  · simp only [Option.getD_some]
    obtain ⟨hj, -, -⟩ := position_some_spec _ l j hpos
    exact hj

lemma add_mod_ne (si d n : Nat) (hsi : si < n) (hd0 : 0 < d) (hdn : d < n) :
    (si + d) % n ≠ si := by
  rcases Nat.lt_or_ge (si + d) n with h | h
  · rw [Nat.mod_eq_of_lt h]; omega
  · have h2 : si + d - n < n := by omega
    rw [Nat.mod_eq_sub_mod h, Nat.mod_eq_of_lt h2]; omega

lemma pivot_two_eq (dflt : K) (l : List E) (si i : Nat)
    (h : (si + l.length * (i % 2 + 1) / 2) % l.length < l.length) :
    pivot key dflt l 2 si i
      = key (l.get ⟨(si + l.length * (i % 2 + 1) / 2) % l.length, h⟩) := by
  simp only [pivot]
  rw [List.getD_eq_getElem _ _ (by simpa using h)]
  simp [List.get_eq_getElem]

lemma key_ne_rx_of_ne_start (rx : K) {l : List E}
    (hs : List.Pairwise (fun a b => key a < key b) l)
    {m : Nat} (hm : m < l.length) (hne : m ≠ startIndex key rx l) :
    key (l.get ⟨m, hm⟩) ≠ rx := by
  intro heq
  unfold startIndex at hne
  rcases hpos : position (fun el => decide (rx ≤ key el)) l with _ | j
  · have hfalse := position_none_forall _ l hpos (l.get ⟨m, hm⟩)
      (List.get_mem l _ _)
    rw [heq] at hfalse
    simp at hfalse
  · rw [hpos] at hne
    simp only [Option.getD_some] at hne
    obtain ⟨hj, htrue, hmin⟩ := position_some_spec _ l j hpos
    rcases Nat.lt_or_ge m j with hlt | hge
    · have hfalse := hmin m hm hlt
      rw [heq] at hfalse
      simp at hfalse
    · have hlt2 : j < m := by omega
      have hkey := sorted_key_lt key hs hj hm hlt2
      simp only [decide_eq_true_eq] at htrue
      rw [heq] at hkey
      exact absurd htrue (not_le.mpr hkey)

lemma start_mem_first_sub (dflt : K) (rx : K) {l : List E}
    (hs : List.Pairwise (fun a b => key a < key b) l)
    (hsi : startIndex key rx l < l.length)
    {i0 : Nat} (hi0 : i0 < l.length) (hne : i0 ≠ startIndex key rx l) :
    (Range.mk rx (key (l.get ⟨i0, hi0⟩))).contains
      (key (l.get ⟨startIndex key rx l, hsi⟩)) = true := by
  rcases lt_trichotomy rx (key (l.get ⟨i0, hi0⟩)) with hlt | heq | hgt
  · rw [Range.contains_iff_of_lt ⟨rx, _⟩ hlt]
    rcases hpos : position (fun el => decide (rx ≤ key el)) l with _ | j
    · exfalso
      have hfalse := position_none_forall _ l hpos (l.get ⟨i0, hi0⟩)
        (List.get_mem l _ _)
      simp only [decide_eq_false_iff_not] at hfalse
      exact hfalse (le_of_lt hlt)
    · have hsij : startIndex key rx l = j := by
        unfold startIndex
        rw [hpos]
        rfl
      obtain ⟨hj, htrue, hmin⟩ := position_some_spec _ l j hpos
      constructor
      · simp only [decide_eq_true_eq] at htrue
        have : l.get ⟨startIndex key rx l, hsi⟩ = l.get ⟨j, hj⟩ := by
          congr 1
          exact Fin.mk_eq_mk.mpr hsij
        rw [this]
        exact htrue
      · have hji0 : j < i0 := by
          rcases Nat.lt_or_ge i0 j with hlt2 | hge2
          · exfalso
            have hfalse := hmin i0 hi0 hlt2
            simp only [decide_eq_false_iff_not] at hfalse
            exact hfalse (le_of_lt hlt)
          · omega
        have hkey := sorted_key_lt key hs hj hi0 hji0
        have : l.get ⟨startIndex key rx l, hsi⟩ = l.get ⟨j, hj⟩ := by
          congr 1
          exact Fin.mk_eq_mk.mpr hsij
        rw [this]
        exact hkey
  · exact Range.contains_true_of_eq ⟨rx, _⟩ heq _
  · rw [Range.contains_iff_of_gt ⟨rx, _⟩ hgt]
    rcases hpos : position (fun el => decide (rx ≤ key el)) l with _ | j
    · right
      have hsi0 : startIndex key rx l = 0 := by
        unfold startIndex
        rw [hpos]
        rfl
      have h0i0 : 0 < i0 := by omega
      have hkey := sorted_key_lt key hs (hsi0 ▸ hsi) hi0 h0i0
      have : l.get ⟨startIndex key rx l, hsi⟩ = l.get ⟨0, hsi0 ▸ hsi⟩ := by
        congr 1
        exact Fin.mk_eq_mk.mpr hsi0
      rw [this]
      exact hkey
    · left
      have hsij : startIndex key rx l = j := by
        unfold startIndex
        rw [hpos]
        rfl
      obtain ⟨hj, htrue, hmin⟩ := position_some_spec _ l j hpos
      simp only [decide_eq_true_eq] at htrue
      have : l.get ⟨startIndex key rx l, hsi⟩ = l.get ⟨j, hj⟩ := by
        congr 1
        exact Fin.mk_eq_mk.mpr hsij
      rw [this]
      exact htrue

lemma get_congr_idx {l : List E} {i j : Nat} (hi : i < l.length) (hij : i = j)
    (hj : j < l.length) : l.get ⟨i, hi⟩ = l.get ⟨j, hj⟩ := by
  subst hij
  rfl

lemma pivot_two_val (dflt : K) (l : List E) (si i : Nat) (h2 : 2 ≤ l.length)
    {m : Nat} (hm : m < l.length)
    (hidx : (si + l.length * (i % 2 + 1) / 2) % l.length = m) :
    pivot key dflt l 2 si i = key (l.get ⟨m, hm⟩) := by
  have hb : (si + l.length * (i % 2 + 1) / 2) % l.length < l.length :=
    Nat.mod_lt _ (by omega)
  rw [pivot_two_eq key dflt l si i hb]
  exact congrArg key (get_congr_idx hb hidx hm)

lemma pivot_two_wrap (dflt : K) (l : List E) (si : Nat) :
    pivot key dflt l 2 si 2 = pivot key dflt l 2 si 0 := by
  norm_num [pivot]

lemma buildRanges_two_cases (dflt : K) (r : Range K) (locals : List E)
    (hsl : List.Pairwise (fun a b => key a < key b) locals)
    (h2 : 2 ≤ locals.length) :
    ∃ (si i0 : Nat) (hsi : si < locals.length) (hi0 : i0 < locals.length),
      si = startIndex key r.x locals ∧ i0 ≠ si ∧
      buildRanges key dflt 2 r locals =
        (if r.x = r.y then
          [⟨key (locals.get ⟨i0, hi0⟩), key (locals.get ⟨si, hsi⟩)⟩,
           ⟨key (locals.get ⟨si, hsi⟩), key (locals.get ⟨i0, hi0⟩)⟩]
        else
          [⟨r.x, key (locals.get ⟨i0, hi0⟩)⟩,
           ⟨key (locals.get ⟨i0, hi0⟩), r.y⟩]) := by
  have hn : 0 < locals.length := by omega
  have hsi : startIndex key r.x locals < locals.length :=
    startIndex_lt key r.x locals hn
  refine ⟨startIndex key r.x locals,
    (startIndex key r.x locals + locals.length * (0 % 2 + 1) / 2) % locals.length,
    hsi, Nat.mod_lt _ hn, rfl,
    add_mod_ne _ _ _ hsi (by omega) (by omega), ?_⟩
  have hi0 : (startIndex key r.x locals + locals.length * (0 % 2 + 1) / 2)
      % locals.length < locals.length := Nat.mod_lt _ hn
  have hp0 : pivot key dflt locals 2 (startIndex key r.x locals) 0
      = key (locals.get ⟨_, hi0⟩) :=
    pivot_two_val key dflt locals _ 0 h2 hi0 rfl
  have hidx1 : (startIndex key r.x locals + locals.length * (1 % 2 + 1) / 2)
      % locals.length = startIndex key r.x locals := by
    have hdiv : locals.length * (1 % 2 + 1) / 2 = locals.length := by omega
    rw [hdiv, Nat.add_mod_right, Nat.mod_eq_of_lt hsi]
  have hp1 : pivot key dflt locals 2 (startIndex key r.x locals) 1
      = key (locals.get ⟨startIndex key r.x locals, hsi⟩) :=
    pivot_two_val key dflt locals _ 1 h2 hsi hidx1
  have hne01 : pivot key dflt locals 2 (startIndex key r.x locals) 0
      ≠ pivot key dflt locals 2 (startIndex key r.x locals) 1 := by
    rw [hp0, hp1]
    exact sorted_key_ne key hsl hi0 hsi
      (add_mod_ne _ _ _ hsi (by omega) (by omega))
  by_cases hxy : r.x = r.y
  · rw [if_pos hxy]
    simp only [buildRanges]
    rw [if_pos hxy]
    have hr2 : List.range 2 = [0, 1] := rfl
    rw [hr2, List.filterMap_cons, List.filterMap_cons, List.filterMap_nil]
    have hstep1 : (0 : Nat) + 1 = 1 := rfl
    have hstep2 : (1 : Nat) + 1 = 2 := rfl
    rw [hstep1, hstep2]
    have hne12 : pivot key dflt locals 2 (startIndex key r.x locals) 1
        ≠ pivot key dflt locals 2 (startIndex key r.x locals) 2 := by
      rw [pivot_two_wrap]
      exact Ne.symm hne01
    rw [if_pos hne01, if_pos hne12, pivot_two_wrap, hp0, hp1]
  · rw [if_neg hxy]
    simp only [buildRanges]
    rw [if_neg hxy]
    have hr0 : List.range (2 - 2) = [] := rfl
    rw [hr0, List.filterMap_nil, List.nil_append, hp0]

lemma bnot_isEmpty_of_ne_nil {α : Type} {l : List α} (h : l ≠ []) :
    (!l.isEmpty) = true := by
  cases l with
  | nil => exact absurd rfl h
  | cons a l => rfl

lemma buildRanges_two_nonempty (dflt : K) (store : StoreList E) (r : Range K)
    (hs : List.Pairwise (fun a b => key a < key b) store)
    (h2 : 2 ≤ (get_range key store r).length) :
    ∀ sub ∈ buildRanges key dflt 2 r (get_range key store r),
      sub.x ≠ sub.y ∧ get_range key store sub ≠ [] := by
  have hsl := get_range_sorted key store r hs
  obtain ⟨si, i0, hsi, hi0, hsieq, hi0ne, heq⟩ :=
    buildRanges_two_cases key dflt r (get_range key store r) hsl h2
  subst hsieq
  have he0mem : (get_range key store r).get ⟨i0, hi0⟩ ∈ store :=
    mem_store_of_mem_get_range key (List.get_mem _ i0 hi0)
  have he1mem : (get_range key store r).get
      ⟨startIndex key r.x (get_range key store r), hsi⟩ ∈ store :=
    mem_store_of_mem_get_range key (List.get_mem _ _ hsi)
  intro sub hsub
  rw [heq] at hsub
  by_cases hxy : r.x = r.y
  · rw [if_pos hxy] at hsub
    simp only [List.mem_cons, List.not_mem_nil, or_false] at hsub
    rcases hsub with rfl | rfl
    · refine ⟨sorted_key_ne key hsl hi0 hsi hi0ne, ?_⟩
      exact List.ne_nil_of_mem ((mem_get_range_iff key).mpr
        ⟨he0mem, Range.contains_left_self _⟩)
    · refine ⟨sorted_key_ne key hsl hsi hi0 (Ne.symm hi0ne), ?_⟩
      exact List.ne_nil_of_mem ((mem_get_range_iff key).mpr
        ⟨he1mem, Range.contains_left_self _⟩)
  · rw [if_neg hxy] at hsub
    simp only [List.mem_cons, List.not_mem_nil, or_false] at hsub
    rcases hsub with rfl | rfl
    · refine ⟨Ne.symm (key_ne_rx_of_ne_start key r.x hsl hi0 hi0ne), ?_⟩
      exact List.ne_nil_of_mem ((mem_get_range_iff key).mpr
        ⟨he1mem, start_mem_first_sub key dflt r.x hsl hsi hi0 hi0ne⟩)
    · refine ⟨Range.ne_y_of_contains r hxy _
        (contains_of_mem_get_range key (List.get_mem _ i0 hi0)), ?_⟩
      exact List.ne_nil_of_mem ((mem_get_range_iff key).mpr
        ⟨he0mem, Range.contains_left_self _⟩)

end PivotLemmas

/-- C2: in every Case-3 recursion step (the program always splits with
`split_factor = 2`; both `Peer` constructors fix it so), over local entries
`locals` of length `n ≥ 2` in store order, the pivot function satisfies
`pivot(i) = locals[(start_index + (n * ((i mod split_factor) + 1)) /
split_factor) mod n].key` with integer division (in particular the index is
in bounds, so the key default is never consulted), where `start_index` is the
first index whose key is `≥ range.x` (`0` if none); and `pivot(0) ≠ range.x`
whenever `n ≥ 2`. -/
theorem pivot_spec {K E : Type} [LinearOrder K] (key : E → K) (dflt : K)
    (r : Range K) (locals : List E) (i : Nat)
    (hsl : List.Pairwise (fun a b => key a < key b) locals)
    (h2 : 2 ≤ locals.length) :
    ((startIndex key r.x locals + locals.length * (i % 2 + 1) / 2) % locals.length
        < locals.length)
    ∧ (∀ h : (startIndex key r.x locals + locals.length * (i % 2 + 1) / 2)
          % locals.length < locals.length,
        pivot key dflt locals 2 (startIndex key r.x locals) i
          = key (locals.get ⟨(startIndex key r.x locals
              + locals.length * (i % 2 + 1) / 2) % locals.length, h⟩))
    ∧ pivot key dflt locals 2 (startIndex key r.x locals) 0 ≠ r.x := by
  have hn : 0 < locals.length := by omega
  have hsi := startIndex_lt key r.x locals hn
  refine ⟨Nat.mod_lt _ hn, fun h => pivot_two_eq key dflt locals _ i h, ?_⟩
  have hi0 : (startIndex key r.x locals + locals.length * (0 % 2 + 1) / 2)
      % locals.length < locals.length := Nat.mod_lt _ hn
  rw [pivot_two_eq key dflt locals _ 0 hi0]
  exact key_ne_rx_of_ne_start key r.x hsl hi0
    (add_mod_ne _ _ _ hsi (by omega) (by omega))

/-- Witness for C2 at `locals = [3, 7]`, `range = (3, 9)`, `i = 1` over
`Nat` keys. -/
theorem pivot_spec_witness :
    ((startIndex (fun n : Nat => n) (Range.mk (3 : Nat) 9).x [3, 7]
        + ([3, 7] : List Nat).length * (1 % 2 + 1) / 2) % ([3, 7] : List Nat).length
        < ([3, 7] : List Nat).length)
    ∧ (∀ h : (startIndex (fun n : Nat => n) (Range.mk (3 : Nat) 9).x [3, 7]
          + ([3, 7] : List Nat).length * (1 % 2 + 1) / 2) % ([3, 7] : List Nat).length
          < ([3, 7] : List Nat).length,
        pivot (fun n : Nat => n) 0 [3, 7] 2
            (startIndex (fun n : Nat => n) (Range.mk (3 : Nat) 9).x [3, 7]) 1
          = (fun n : Nat => n) (([3, 7] : List Nat).get
              ⟨(startIndex (fun n : Nat => n) (Range.mk (3 : Nat) 9).x [3, 7]
                + ([3, 7] : List Nat).length * (1 % 2 + 1) / 2)
                % ([3, 7] : List Nat).length, h⟩))
    ∧ pivot (fun n : Nat => n) 0 [3, 7] 2
        (startIndex (fun n : Nat => n) (Range.mk (3 : Nat) 9).x [3, 7]) 0
      ≠ (Range.mk (3 : Nat) 9).x :=
  pivot_spec (fun n : Nat => n) 0 ⟨3, 9⟩ [3, 7] 1 (by decide) (by decide)

/-- C3: whenever `process_message` takes Case 3 (the local fingerprint of the
range differs from the inbound one, there are at least 2 local entries, and
the inbound fingerprint is not `empty()`), at least two of the sub-ranges it
emits parts for hold local entries: the `debug_assert!(non_empty > 1)` never
fires (the program always splits with `split_factor = 2`). -/
theorem case3_progress {K E : Type} [LinearOrder K] (key : E → K)
    (efp : E → Fingerprint) (dflt : K) (store : StoreList E) (r : Range K)
    (f : Fingerprint)
    (hs : List.Pairwise (fun a b => key a < key b) store)
    (hfp : get_fingerprint key efp store r ≠ f)
    (hcase3 : ¬((get_range key store r).length ≤ 1 ∨ f = Fingerprint.empty)) :
    1 < nonEmptyCount key store
      (buildRanges key dflt 2 r (get_range key store r)) := by
  push_neg at hcase3
  have h2 : 2 ≤ (get_range key store r).length := by omega
  have hall := buildRanges_two_nonempty key dflt store r hs h2
  obtain ⟨si, i0, hsi, hi0, hsieq, hi0ne, heq⟩ :=
    buildRanges_two_cases key dflt r (get_range key store r)
      (get_range_sorted key store r hs) h2
  have hlen2 : (buildRanges key dflt 2 r (get_range key store r)).length = 2 := by
    rw [heq]
    split
    · rfl
    · rfl
  unfold nonEmptyCount
  have hcount : List.countP (fun sub => !(get_range key store sub).isEmpty)
      (buildRanges key dflt 2 r (get_range key store r))
      = (buildRanges key dflt 2 r (get_range key store r)).length := by
    apply List.countP_eq_length.mpr
    intro sub hsub
    exact bnot_isEmpty_of_ne_nil (hall sub hsub).2
  rw [hcount, hlen2]
  omega

/-- Witness for C3: store `{1, 2}`, all-range `(1, 1)`, inbound fingerprint
32 bytes `9` (neither `empty()` nor the local fingerprint). -/
theorem case3_progress_witness :
    (¬((get_range (fun n : Nat => n) [1, 2] (Range.mk (1 : Nat) 1)).length ≤ 1
        ∨ (⟨List.replicate 32 9⟩ : Fingerprint) = Fingerprint.empty))
    ∧ 1 < nonEmptyCount (fun n : Nat => n) [1, 2]
        (buildRanges (fun n : Nat => n) 0 2 (Range.mk (1 : Nat) 1)
          (get_range (fun n : Nat => n) [1, 2] (Range.mk (1 : Nat) 1))) :=
  ⟨by decide,
   case3_progress (fun n : Nat => n) (fun n : Nat => ⟨List.replicate 32 n⟩) 0
     [1, 2] ⟨1, 1⟩ ⟨List.replicate 32 9⟩ (by decide) (by decide) (by decide)⟩

/-- C4: in Case 3 (the program always splits with `split_factor = 2`),
exactly one part is emitted per constructed sub-range, in order: a
`RangeFingerprint` when the sub-range's local entry count exceeds
`max_set_size`, else a `RangeItem` with the sub-range's actual local entries
and `have_local = false`; sub-range candidates with equal endpoints are
skipped during construction, and every constructed sub-range in fact holds at
least one local entry, so no part is ever emitted for an empty sub-range. -/
theorem case3_emission {K E : Type} [LinearOrder K] (key : E → K)
    (efp : E → Fingerprint) (dflt : K) (msz : Nat) (store : StoreList E)
    (r : Range K) (f : Fingerprint)
    (hs : List.Pairwise (fun a b => key a < key b) store)
    (hfp : get_fingerprint key efp store r ≠ f)
    (hcase3 : ¬((get_range key store r).length ≤ 1 ∨ f = Fingerprint.empty)) :
    case3Parts key efp dflt msz 2 store r (get_range key store r)
      = (buildRanges key dflt 2 r (get_range key store r)).map (fun sub =>
          if msz < (get_range key store sub).length then
            MessagePart.rangeFingerprint ⟨sub, get_fingerprint key efp store sub⟩
          else
            MessagePart.rangeItem ⟨sub, get_range key store sub, false⟩)
    ∧ ∀ sub ∈ buildRanges key dflt 2 r (get_range key store r),
        sub.x ≠ sub.y ∧ get_range key store sub ≠ [] := by
  constructor
  · rfl
  · push_neg at hcase3
    exact buildRanges_two_nonempty key dflt store r hs (by omega)

/-- Witness for C4: store `{1, 2, 3}`, range `(1, 3)` (local entries
`{1, 2}`), `max_set_size = 1`, inbound fingerprint 32 bytes `7`. -/
theorem case3_emission_witness :
    (¬((get_range (fun n : Nat => n) [1, 2, 3] (Range.mk (1 : Nat) 3)).length ≤ 1
        ∨ (⟨List.replicate 32 7⟩ : Fingerprint) = Fingerprint.empty))
    ∧ (case3Parts (fun n : Nat => n) (fun n : Nat => ⟨List.replicate 32 n⟩) 0 1 2
          [1, 2, 3] (Range.mk (1 : Nat) 3)
          (get_range (fun n : Nat => n) [1, 2, 3] (Range.mk (1 : Nat) 3))
        = (buildRanges (fun n : Nat => n) 0 2 (Range.mk (1 : Nat) 3)
            (get_range (fun n : Nat => n) [1, 2, 3] (Range.mk (1 : Nat) 3))).map
            (fun sub =>
              if 1 < (get_range (fun n : Nat => n) [1, 2, 3] sub).length then
                MessagePart.rangeFingerprint
                  ⟨sub, get_fingerprint (fun n : Nat => n)
                    (fun n : Nat => ⟨List.replicate 32 n⟩) [1, 2, 3] sub⟩
              else
                MessagePart.rangeItem
                  ⟨sub, get_range (fun n : Nat => n) [1, 2, 3] sub, false⟩)
      ∧ ∀ sub ∈ buildRanges (fun n : Nat => n) 0 2 (Range.mk (1 : Nat) 3)
            (get_range (fun n : Nat => n) [1, 2, 3] (Range.mk (1 : Nat) 3)),
          sub.x ≠ sub.y ∧ get_range (fun n : Nat => n) [1, 2, 3] sub ≠ []) :=
  ⟨by decide,
   case3_emission (fun n : Nat => n) (fun n : Nat => ⟨List.replicate 32 n⟩) 0 1
     [1, 2, 3] (Range.mk (1 : Nat) 3) ⟨List.replicate 32 7⟩
     (by decide) (by decide) (by decide)⟩

/-! ### Phase A ordering, recursion anchor, validate no-op -/

/-- C5: for every inbound `RangeItem` part, the diff is computed against the
store state before that part's values are inserted (the recursion continues
on the store with the part's validated values inserted), and a reply
`RangeItem { range, values: diff, have_local: true }` is contributed for the
part if and only if `have_local = false` and the diff is non-empty. -/
theorem phaseA_order {K E : Type} [LinearOrder K] (key : E → K)
    (validate : StoreList E → E → Bool) (store : StoreList E)
    (item : RangeItem K E) (rest : List (RangeItem K E)) :
    processItems key validate store (item :: rest)
      = ((processItems key validate
            (putValues key validate store item.values) rest).1,
         (if item.have_local = false ∧ (computeDiff key store item).isEmpty = false
          then [MessagePart.rangeItem ⟨item.range, computeDiff key store item, true⟩]
          else [])
         ++ (processItems key validate
              (putValues key validate store item.values) rest).2) := by
  simp only [processItems, processItem]
  by_cases hl : item.have_local = true
  · rw [if_pos hl]
    simp [hl]
  · rw [if_neg hl]
    have hl2 : item.have_local = false := by simpa using hl
    by_cases hd : (computeDiff key store item).isEmpty = true
    · simp [hl2, hd]
    · have hd2 : (computeDiff key store item).isEmpty = false := by simpa using hd
      simp [hl2, hd2]

/-- C6: for an inbound `RangeFingerprint` part, if the local fingerprint over
the same range equals the inbound one (Case 1), nothing is emitted for the
part; if they differ and the range holds at most one local entry or the
inbound fingerprint is `empty()` (Case 2), exactly one
`RangeItem { range, values: locals, have_local: false }` is emitted and the
range is not subdivided. -/
theorem recursion_anchor {K E : Type} [LinearOrder K] (key : E → K)
    (efp : E → Fingerprint) (dflt : K) (msz sf : Nat) (store : StoreList E)
    (rf : RangeFingerprint K) :
    (get_fingerprint key efp store rf.range = rf.fingerprint →
      processFingerprint key efp dflt msz sf store rf = [])
    ∧ (get_fingerprint key efp store rf.range ≠ rf.fingerprint →
        ((get_range key store rf.range).length ≤ 1
          ∨ rf.fingerprint = Fingerprint.empty) →
        processFingerprint key efp dflt msz sf store rf
          = [MessagePart.rangeItem
              ⟨rf.range, get_range key store rf.range, false⟩]) := by
  constructor
  · intro h
    simp only [processFingerprint]
    rw [if_pos h]
  · intro h hcase
    simp only [processFingerprint]
    rw [if_neg h, if_pos hcase]

/-- Witness for C6: store `{5}`; Case 1 with the matching fingerprint over
the all-range `(0, 0)`, Case 2 with the inbound fingerprint `empty()`. -/
theorem recursion_anchor_witness :
    (processFingerprint (fun n : Nat => n) (fun n : Nat => ⟨List.replicate 32 n⟩)
        0 1 2 [5]
        ⟨⟨0, 0⟩, get_fingerprint (fun n : Nat => n)
          (fun n : Nat => ⟨List.replicate 32 n⟩) [5] ⟨0, 0⟩⟩ = [])
    ∧ processFingerprint (fun n : Nat => n) (fun n : Nat => ⟨List.replicate 32 n⟩)
        0 1 2 [5] ⟨⟨0, 0⟩, Fingerprint.empty⟩
      = [MessagePart.rangeItem
          ⟨⟨0, 0⟩, get_range (fun n : Nat => n) [5] ⟨0, 0⟩, false⟩] :=
  ⟨(recursion_anchor (fun n : Nat => n) (fun n : Nat => ⟨List.replicate 32 n⟩)
      0 1 2 [5] ⟨⟨0, 0⟩, get_fingerprint (fun n : Nat => n)
        (fun n : Nat => ⟨List.replicate 32 n⟩) [5] ⟨0, 0⟩⟩).1 rfl,
   (recursion_anchor (fun n : Nat => n) (fun n : Nat => ⟨List.replicate 32 n⟩)
      0 1 2 [5] ⟨⟨0, 0⟩, Fingerprint.empty⟩).2 (by decide) (by decide)⟩

lemma putValues_id {K E : Type} [LinearOrder K] (key : E → K)
    (validate : StoreList E → E → Bool)
    (hv : ∀ s e, validate s e = false) :
    ∀ (values : List E) (store : StoreList E),
      putValues key validate store values = store
  | [], _ => rfl
  | v :: vs, store => by
    unfold putValues
    rw [List.foldl_cons, hv store v, if_neg (by simp)]
    exact putValues_id key validate hv vs store

lemma processItems_store_id {K E : Type} [LinearOrder K] (key : E → K)
    (validate : StoreList E → E → Bool)
    (hv : ∀ s e, validate s e = false) :
    ∀ (items : List (RangeItem K E)) (store : StoreList E),
      (processItems key validate store items).1 = store
  | [], _ => rfl
  | item :: rest, store => by
    simp only [processItems, processItem]
    rw [putValues_id key validate hv item.values store]
    exact processItems_store_id key validate hv rest store

/-- C9: if `validate_cb` rejects every candidate entry, `process_message`
performs no store insertion: the peer's store after the call equals the store
before it (and rejection itself produces no part and no error — the
embedding is total). -/
theorem validate_reject_noop {K E : Type} [LinearOrder K] (key : E → K)
    (efp : E → Fingerprint) (dflt : K)
    (validate : StoreList E → E → Bool) (p : Peer E) (msg : Message K E)
    (hv : ∀ s e, validate s e = false) :
    (Peer.process_message key efp dflt validate p msg).1.store = p.store := by
  simp only [Peer.process_message, process_message_store]
  exact processItems_store_id key validate hv _ p.store

/-- Witness for C9: the always-false validator on store `{5}` against a
message shipping the value `7`. -/
theorem validate_reject_noop_witness :
    (∀ (s : StoreList Nat) (e : Nat),
      (fun (_ : StoreList Nat) (_ : Nat) => false) s e = false)
    ∧ (Peer.process_message (fun n : Nat => n)
        (fun n : Nat => ⟨List.replicate 32 n⟩) 0
        (fun (_ : StoreList Nat) (_ : Nat) => false) (Peer.from_store [5])
        ⟨[MessagePart.rangeItem ⟨⟨0, 0⟩, [7], false⟩]⟩).1.store
      = (Peer.from_store [5]).store :=
  ⟨fun _ _ => rfl,
   validate_reject_noop (fun n : Nat => n) (fun n : Nat => ⟨List.replicate 32 n⟩)
     0 (fun _ _ => false) (Peer.from_store [5])
     ⟨[MessagePart.rangeItem ⟨⟨0, 0⟩, [7], false⟩]⟩ (fun _ _ => rfl)⟩

/-- C10: an inbound `RangeFingerprint` over a range with no local entries
(so the local fingerprint is `empty()`) whose fingerprint differs from
`empty()` makes `process_message` emit a `RangeItem` with an empty `values`
list and `have_local = false` — the public interface produces empty-values
items that still solicit the remote's entries. -/
theorem empty_values_reply {K E : Type} [LinearOrder K] (key : E → K)
    (efp : E → Fingerprint) (dflt : K) (msz sf : Nat) (store : StoreList E)
    (r : Range K) (f : Fingerprint)
    (hempty : get_range key store r = [])
    (hf : f ≠ Fingerprint.empty) :
    get_fingerprint key efp store r = Fingerprint.empty
    ∧ processFingerprint key efp dflt msz sf store ⟨r, f⟩
      = [MessagePart.rangeItem ⟨r, [], false⟩] := by
  have hfp : get_fingerprint key efp store r = Fingerprint.empty := by
    unfold get_fingerprint
    rw [hempty]
    rfl
  refine ⟨hfp, ?_⟩
  simp only [processFingerprint]
  rw [if_neg (hfp ▸ (Ne.symm hf) : ¬get_fingerprint key efp store r = f),
    if_pos (Or.inl (by rw [hempty]; exact Nat.zero_le 1) :
      (get_range key store r).length ≤ 1 ∨ f = Fingerprint.empty),
    hempty]

/-- Witness for C10: the empty store, range `(0, 1)`, inbound fingerprint 32
zero bytes. -/
theorem empty_values_reply_witness :
    (get_range (fun n : Nat => n) ([] : StoreList Nat) (Range.mk (0 : Nat) 1) = []
      ∧ (⟨List.replicate 32 0⟩ : Fingerprint) ≠ Fingerprint.empty)
    ∧ (get_fingerprint (fun n : Nat => n) (fun n : Nat => ⟨List.replicate 32 n⟩)
        ([] : StoreList Nat) (Range.mk (0 : Nat) 1) = Fingerprint.empty
      ∧ processFingerprint (fun n : Nat => n)
          (fun n : Nat => ⟨List.replicate 32 n⟩) 0 1 2 ([] : StoreList Nat)
          ⟨⟨0, 1⟩, ⟨List.replicate 32 0⟩⟩
        = [MessagePart.rangeItem ⟨⟨0, 1⟩, [], false⟩]) :=
  ⟨⟨rfl, by decide⟩,
   empty_values_reply (fun n : Nat => n) (fun n : Nat => ⟨List.replicate 32 n⟩)
     0 1 2 ([] : StoreList Nat) ⟨0, 1⟩ ⟨List.replicate 32 0⟩ rfl (by decide)⟩

end Ranger
